import Mathlib

set_option maxHeartbeats 1600000
set_option maxRecDepth 100000

/-!
Verification development for the job-listing harvesting pipeline in
`scripts/fetch-linkedin-jobs.ts`.

The TypeScript source is shallowly embedded below.  JavaScript strings are
modelled as Lean `String` (lists of characters); every JavaScript string
primitive used by the script (`toLowerCase`, `includes`, `split`, `trim`,
`startsWith`, `indexOf`, `replace(/\s+/g, " ")`) gets an executable model
over `List Char`.  The literal regular expressions of the script are pure
alternations of literals plus a few character classes; each is modelled by a
dedicated leftmost-match scanner mirroring the backtracking behaviour of the
JavaScript engine on that concrete pattern.  Network I/O is modelled by an
environment providing the fetched text (`none` models a thrown fetch error),
and `fetchText`'s retry loop by a function over the list of successive HTTP
responses.
-/

namespace JobFetch

/-! ### Models of JavaScript string primitives -/

/-- The ASCII fragment of the JavaScript `\s` class (whitespace). -/
def jsWs (c : Char) : Bool :=
  c == ' ' || c == '\t' || c == '\n' || c == '\r' || c == '\x0b' || c == '\x0c'

/-- ASCII model of JavaScript `toLowerCase` on one character. -/
def lowerChar (c : Char) : Char :=
  if 65 ≤ c.toNat ∧ c.toNat ≤ 90 then Char.ofNat (c.toNat + 32) else c

/-- ASCII model of JavaScript `toUpperCase` on one character. -/
def upperChar (c : Char) : Char :=
  if 97 ≤ c.toNat ∧ c.toNat ≤ 122 then Char.ofNat (c.toNat - 32) else c

/-- Model of JavaScript `s.toLowerCase()`. -/
def lowerStr (s : String) : String := String.mk (s.data.map lowerChar)

/-- Model of JavaScript `s.indexOf(needle)` (as `Option` instead of `-1`). -/
def indexOfSub (needle : List Char) : List Char → Option Nat
  | [] => if needle.isEmpty then some 0 else none
  | c :: cs =>
    if needle.isPrefixOf (c :: cs) then some 0
    else (indexOfSub needle cs).map (· + 1)

/-- Model of JavaScript `s.includes(sub)`. -/
def jsIncludes (s sub : String) : Bool := (indexOfSub sub.data s.data).isSome

/-- Scanner for JavaScript `s.split(sep)` (non-empty `sep`): `skip` counts
separator characters still to be consumed after a match. -/
def splitAux (sep : List Char) : List Char → Nat → List Char → List (List Char)
  | [], _, acc => [acc]
  | _ :: rest, skip + 1, acc => splitAux sep rest skip acc
  | c :: rest, 0, acc =>
    if sep.isPrefixOf (c :: rest) then acc :: splitAux sep rest (sep.length - 1) []
    else splitAux sep rest 0 (acc ++ [c])

/-- Model of JavaScript `s.split(sep)`. -/
def jsSplit (s sep : String) : List String :=
  (splitAux sep.data s.data 0 []).map String.mk

/-- Model of JavaScript `s.split(sep).pop()` (the array is never empty). -/
def jsSplitLast (s sep : String) : String :=
  String.mk ((splitAux sep.data s.data 0 []).getLastD s.data)

/-- Model of JavaScript `s.replace(/\s+/g, " ")`: every maximal whitespace
run becomes a single space. -/
def wsNormalize : List Char → List Char
  | [] => []
  | [c] => if jsWs c then [' '] else [c]
  | c :: d :: rest =>
    if jsWs c then
      if jsWs d then wsNormalize (d :: rest)
      else ' ' :: wsNormalize (d :: rest)
    else c :: wsNormalize (d :: rest)

/-- Model of JavaScript `s.trim()` on a character list. -/
def trimChars (l : List Char) : List Char :=
  ((l.dropWhile jsWs).reverse.dropWhile jsWs).reverse

/-- Model of JavaScript `s.trim()`. -/
def jsTrim (s : String) : String := String.mk (trimChars s.data)

/-- Model of JavaScript `s.startsWith(p)`. -/
def jsStartsWith (s p : String) : Bool := p.data.isPrefixOf s.data

/-- Model of JavaScript `parts.join(sep)`. -/
def joinSep (sep : String) : List String → String
  | [] => ""
  | [x] => x
  | x :: y :: rest => x ++ sep ++ joinSep sep (y :: rest)

/-! ### Leftmost regex matching for the literal patterns of the script -/

/-- Consume the literal `p` from the front of `s`. -/
def stripPre : List Char → List Char → Option (List Char)
  | [], s => some s
  | _ :: _, [] => none
  | p :: ps, c :: cs => if p == c then stripPre ps cs else none

/-- Leftmost match: try `f` at every position left to right. -/
def scanMatch {α : Type} (f : List Char → Option α) : List Char → Option α
  | [] => f []
  | c :: cs =>
    match f (c :: cs) with
    | some r => some r
    | none => scanMatch f cs

/-- Characters before the first occurrence of `stop`, and the remainder
(which is either empty or starts with `stop`).  Models a greedy
`[^stop]+` class followed by a forced boundary. -/
def takeUntil (stop : Char) : List Char → List Char × List Char
  | [] => ([], [])
  | c :: cs =>
    if c == stop then ([], c :: cs)
    else
      let p := takeUntil stop cs
      (c :: p.1, p.2)

/-- Model of `https?:\/\/` with the regex's greedy optional `s`:
returns the matched scheme characters and the remainder. -/
def stripScheme (s : List Char) : Option (List Char × List Char) :=
  match stripPre ("http").data s with
  | none => none
  | some rest =>
    match stripPre ("s://").data rest with
    | some r => some (("https://").data, r)
    | none =>
      match stripPre ("://").data rest with
      | some r => some (("http://").data, r)
      | none => none

/-- One attempt of the link pattern ``pre ++ `[([^\]]+)\((https?://[^)]+)\)` ``
at the current position: used with `pre = "*   ["` for the title pattern
`\*   \[([^\]]+)\]\((https?:\/\/[^\)]+)\)` and `pre = "#### ["` for the
company pattern.  Returns (capture 1, capture 2). -/
def tryLinkAt (pre : List Char) (s : List Char) : Option (String × String) :=
  match stripPre pre s with
  | none => none
  | some s1 =>
    let t := takeUntil ']' s1
    match t.2 with
    | [] => none
    | _ :: afterClose =>
      if t.1.isEmpty then none
      else
        match afterClose with
        | '(' :: s2 =>
          match stripScheme s2 with
          | none => none
          | some (scheme, s3) =>
            let u := takeUntil ')' s3
            match u.2 with
            | [] => none
            | _ :: _ =>
              if u.1.isEmpty then none
              else some (String.mk t.1, String.mk (scheme ++ u.1))
        | _ => none

/-- One attempt of the meta pattern `\n\n ([^\n]+)\n` at the current
position. -/
def tryMetaAt (s : List Char) : Option String :=
  match s with
  | '\n' :: '\n' :: ' ' :: rest =>
    let t := takeUntil '\n' rest
    if t.1.isEmpty then none
    else
      match t.2 with
      | '\n' :: _ => some (String.mk t.1)
      | _ => none
  | _ => none

/-- JavaScript `\w` on ASCII. -/
def isWordChar (c : Char) : Bool := c.isAlpha || c.isDigit || c == '_'

/-- The `\b` condition after a literal: next character absent or non-word. -/
def boundaryAfter (s : List Char) : Bool :=
  match s with
  | [] => true
  | c :: _ => !isWordChar c

/-- The alternation `(day|hour|week|month)` at the current position. -/
def tryUnit (s : List Char) : Option (List Char) :=
  match stripPre ("day").data s with
  | some r => some r
  | none =>
    match stripPre ("hour").data s with
    | some r => some r
    | none =>
      match stripPre ("week").data s with
      | some r => some r
      | none => stripPre ("month").data s

/-- One attempt of `(day|hour|week|month)s?\s+ago\b` at the current
position (the string is already lowercased for the `/i` flag). -/
def relTimeAt (s : List Char) : Bool :=
  match tryUnit s with
  | none => false
  | some rest =>
    let rest2 := match rest with
      | 's' :: r => r
      | _ => rest
    match rest2 with
    | [] => false
    | c :: cs =>
      if jsWs c then
        match stripPre ("ago").data (List.dropWhile jsWs cs) with
        | some r4 => boundaryAfter r4
        | none => false
      else false

/-- Scan carrying the left `\b` state (start of string, or previous
character non-word). -/
def scanRelTime : List Char → Bool → Bool
  | [], _ => false
  | c :: cs, bOk => (bOk && relTimeAt (c :: cs)) || scanRelTime cs (!isWordChar c)

/-- Model of `/\b(day|hour|week|month)s?\s+ago\b/i.test(s)`. -/
def testRelTime (s : String) : Bool := scanRelTime (lowerStr s).data true

/-- One attempt of `(today|yesterday)\b` at the current position. -/
def todayAt (s : List Char) : Bool :=
  match stripPre ("today").data s with
  | some r => boundaryAfter r
  | none =>
    match stripPre ("yesterday").data s with
    | some r => boundaryAfter r
    | none => false

/-- Scan for `\b(today|yesterday)\b`. -/
def scanToday : List Char → Bool → Bool
  | [], _ => false
  | c :: cs, bOk => (bOk && todayAt (c :: cs)) || scanToday cs (!isWordChar c)

/-- Model of `/\b(today|yesterday)\b/i.test(s)`. -/
def testToday (s : String) : Bool := scanToday (lowerStr s).data true

/-! ### Data model (`SearchConfig`, `RawJob`, `JobEntry`) -/

inductive VisaStatus
  | yes
  | no
  | notMentioned
  deriving DecidableEq

structure SearchConfig where
  country : String
  locationParam : String
  keywords : String
  label : String
  maxJobs : Nat
  deriving DecidableEq

structure RawJob where
  title : String
  company : String
  jobUrl : String
  companyUrl : Option String
  locationLine : String
  postedText : String
  metaTags : List String
  countryGuess : String
  search : SearchConfig
  deriving DecidableEq

structure VisaMark where
  status : VisaStatus
  evidence : Option String
  deriving DecidableEq

structure JobEntry where
  id : String
  title : String
  company : String
  applyUrl : String
  companyUrl : Option String
  location : String
  country : String
  posted : String
  meta : List String
  matchReasons : List String
  visa : VisaMark
  searchLabel : String
  searchKeywords : String
  source : String
  fetchedAt : String
  deriving DecidableEq

/-- The hard-coded `SEARCHES` configuration list. -/
def SEARCHES : List SearchConfig :=
  [ ⟨"Belgium", "Belgium", "digital marketing", "Digital Marketing (Belgium)", 4⟩,
    ⟨"Belgium", "Brussels, Brussels Region, Belgium", "social media manager", "Social Media Manager (Belgium)", 4⟩,
    ⟨"Ireland", "Dublin, County Dublin, Ireland", "digital marketing manager", "Digital Marketing Manager (Ireland)", 4⟩,
    ⟨"Ireland", "Dublin, County Dublin, Ireland", "social media specialist", "Social Media Specialist (Ireland)", 4⟩,
    ⟨"Italy", "Milan, Lombardy, Italy", "digital marketing", "Digital Marketing (Italy)", 5⟩,
    ⟨"Italy", "Rome, Lazio, Italy", "content creator", "Content Creator (Italy)", 5⟩,
    ⟨"Netherlands", "Netherlands", "digital marketing", "Digital Marketing (Netherlands)", 6⟩,
    ⟨"Netherlands", "Amsterdam, North Holland, Netherlands", "content marketer", "Content Marketer (Netherlands)", 4⟩,
    ⟨"United Kingdom", "United Kingdom", "digital marketing executive", "Digital Marketing Executive (UK)", 6⟩,
    ⟨"United Kingdom", "United Kingdom", "content creator social media", "Content Creator / Social Media (UK)", 5⟩ ]

/-! ### `fetchText`: retry loop over a list of successive HTTP responses -/

structure HttpResp where
  status : Nat
  body : String
  deriving DecidableEq

inductive FetchResult
  | ok (body : String)
  | retriesExhausted
  | httpError (status : Nat)
  | outOfResponses
  deriving DecidableEq

/-- JavaScript `response.ok` (status in 200..299). -/
def respOk (r : HttpResp) : Bool := 200 ≤ r.status && r.status ≤ 299

/-- The in-body rate-limit markers `/HTTP ERROR 429/i` and
`/Too Many Requests/i`. -/
def rateLimitBody (body : String) : Bool :=
  jsIncludes (lowerStr body) "http error 429" || jsIncludes (lowerStr body) "too many requests"

/-- Model of `fetchText(url, attempt)`: the list holds the responses the
network would return to the successive requests. -/
def fetchTextModel : List HttpResp → Nat → FetchResult
  | [], _ => FetchResult.outOfResponses
  | r :: rest, attempt =>
    if r.status == 429 then
      if attempt > 4 then FetchResult.retriesExhausted
      else fetchTextModel rest (attempt + 1)
    else if r.status == 429 || rateLimitBody r.body then
      if attempt > 4 then FetchResult.retriesExhausted
      else fetchTextModel rest (attempt + 1)
    else if !respOk r then FetchResult.httpError r.status
    else FetchResult.ok r.body

/-! ### Classification rules -/

/-- `isRemote(meta, location)` from the script. -/
def isRemote (meta : List String) (location : String) : Bool :=
  let text := lowerStr (location ++ " " ++ joinSep " " meta)
  jsIncludes text "remote" || jsIncludes text "work from home"

def requiredKeywords : List String :=
  ["marketing", "content", "social", "video", "digital", "creative",
   "communications", "community", "seo", "brand"]

def excludedKeywords : List String :=
  ["engineer", "engineering", "developer", "scientist", "medical writer",
   "nurse", "physician", "chemist"]

/-- `isRelevantTitle(title)` from the script. -/
def isRelevantTitle (title : String) : Bool :=
  let normalized := lowerStr title
  if !(requiredKeywords.any (fun keyword => jsIncludes normalized keyword)) then false
  else if excludedKeywords.any (fun keyword => jsIncludes normalized keyword) then false
  else true

/-! ### Country inference -/

def countryNames : List String :=
  ["united kingdom", "netherlands", "belgium", "ireland", "italy",
   "tunisia", "united states", "france", "germany"]

/-- `word.charAt(0).toUpperCase() + word.slice(1)`. -/
def capitalizeWord (w : String) : String :=
  match w.data with
  | [] => ""
  | c :: cs => String.mk (upperChar c :: cs)

/-- `country.split(" ").map(capitalize).join(" ")`. -/
def titleCase (s : String) : String :=
  joinSep " " ((jsSplit s " ").map capitalizeWord)

/-- The class `[A-Za-z ]`. -/
def alphaSpace (c : Char) : Bool := c.isAlpha || c == ' '

/-- Model of `/, *([A-Za-z ]+)$/.test(location)`: some comma is followed
(to the end of the string) by a non-empty run of letters and spaces. -/
def commaCountryTest : List Char → Bool
  | [] => false
  | c :: rest =>
    (c == ',' && !rest.isEmpty && rest.all alphaSpace) || commaCountryTest rest

/-- `inferCountry(location)` from the script. -/
def inferCountry (location : String) : Option String :=
  let lower := lowerStr location
  match countryNames.find? (fun country => jsIncludes lower country) with
  | some country => some (titleCase country)
  | none =>
    if commaCountryTest location.data then
      some (jsTrim ((jsSplit location ",").getLastD ""))
    else none

/-! ### Visa evidence extraction (`detectVisa`) -/

/-- The alternatives of the positive regex
`/(visa (sponsorship|support|assistance|provided|relocation)|work permit support|sponsor your visa)/`
flattened in the engine's trial order. -/
def positivePhrases : List String :=
  ["visa sponsorship", "visa support", "visa assistance", "visa provided",
   "visa relocation", "work permit support", "sponsor your visa"]

/-- The alternatives of the negative regex
`/(no visa sponsorship|without sponsorship|must have (?:eu )?work permit|not provide sponsorship)/`
flattened in the engine's trial order (the optional `eu ` group is tried
greedily first). -/
def negativePhrases : List String :=
  ["no visa sponsorship", "without sponsorship", "must have eu work permit",
   "must have work permit", "not provide sponsorship"]

/-- The alternatives of the neutral regex `/(work permit|right to work)/`. -/
def permitPhrases : List String :=
  ["work permit", "right to work"]

/-- At one position, the first alternative that is a literal prefix. -/
def findAltAt (alts : List String) (s : List Char) : Option String :=
  alts.find? (fun a => a.data.isPrefixOf s)

/-- Leftmost match of an alternation of literals: `lower.match(regex)[0]`. -/
def firstMatch (alts : List String) : List Char → Option String :=
  scanMatch (findAltAt alts)

/-- `extractEvidence(text, keyword)` from the script: whitespace-normalize,
locate the keyword case-insensitively, return a trimmed window of up to 160
characters before and 200 after. -/
def extractEvidence (text keyword : String) : Option String :=
  let clean := wsNormalize text.data
  match indexOfSub (lowerStr keyword).data (clean.map lowerChar) with
  | none => none
  | some index =>
    let start := index - 160
    let stop := min clean.length (index + 200)
    some (String.mk (trimChars ((clean.drop start).take (stop - start))))

structure VisaInfo where
  status : VisaStatus
  evidence : Option String
  detailText : String
  deriving DecidableEq

/-- The pure part of `detectVisa(jobUrl)`: classification of the fetched
detail-page text. -/
def detectVisaPure (text : String) : VisaInfo :=
  let body := jsSplitLast text "Markdown Content:"
  let lower := lowerStr body
  match firstMatch positivePhrases lower.data with
  | some kw => ⟨VisaStatus.yes, extractEvidence body kw, body⟩
  | none =>
    match firstMatch negativePhrases lower.data with
    | some kw => ⟨VisaStatus.no, extractEvidence body kw, body⟩
    | none =>
      match firstMatch permitPhrases lower.data with
      | some kw => ⟨VisaStatus.notMentioned, extractEvidence body kw, body⟩
      | none => ⟨VisaStatus.notMentioned, none, body⟩

/-! ### Match-reason synthesis -/

structure SkillRule where
  keywords : List String
  reason : String

/-- The fixed `skillRules` table of `buildMatchReasons`. -/
def skillRules : List SkillRule :=
  [ ⟨["social media", "social-media", "instagram", "tiktok", "facebook",
      "x (formerly twitter)", "community manager"],
     "Direct social media and community management responsibilities"⟩,
    ⟨["content creation", "content strategy", "copywriting", "storytelling",
      "blog", "newsletter"],
     "High volume content creation and storytelling focus"⟩,
    ⟨["video", "filming", "videography", "premiere pro", "after effects",
      "motion graphics"],
     "Video production/editing skills explicitly requested"⟩,
    ⟨["wordpress", "cms", "content management system"],
     "WordPress / CMS publishing experience highlighted"⟩,
    ⟨["seo", "search engine", "organic traffic", "keyword research"],
     "SEO optimisation responsibilities included"⟩,
    ⟨["campaign", "go-to-market", "marketing campaign", "campaign planning"],
     "Owns campaign planning and execution"⟩,
    ⟨["adobe", "photoshop", "illustrator", "lightroom", "graphic design"],
     "Graphic design & Adobe Creative Suite skills required"⟩,
    ⟨["video editing", "davinci resolve", "final cut"],
     "Hands-on video editing deliverables"⟩,
    ⟨["analytics", "google analytics", "reporting", "data driven"],
     "Performance analytics & reporting responsibilities"⟩ ]

/-- `Set.add`: append if not already present (insertion order preserved). -/
def addUnique (l : List String) (s : String) : List String :=
  if l.contains s then l else l ++ [s]

/-- `buildMatchReasons(raw, detailText)` from the script. -/
def buildMatchReasons (raw : RawJob) (detailText : String) : List String :=
  let corpus := lowerStr (raw.title ++ " " ++ detailText)
  skillRules.foldl
    (fun reasons rule =>
      if rule.keywords.any (fun kw => jsIncludes corpus kw) then addUnique reasons rule.reason
      else reasons)
    ["Matches " ++ raw.search.label]

/-! ### Markdown job parser (`parseMarkdown`) -/

/-- Parse one listing block (the body of the `for (const block of blocks)`
loop, `continue` modelled as `none`). -/
def parseBlock (block : String) (search : SearchConfig) : Option RawJob :=
  match scanMatch (tryLinkAt ("*   [").data) block.data with
  | none => none
  | some (titleCap, jobUrl) =>
    if !jsIncludes jobUrl "linkedin.com/jobs/view" then none
    else
      match scanMatch (tryLinkAt ("#### [").data) block.data with
      | none => none
      | some (companyCap, companyUrl) =>
        let rawMeta := match scanMatch tryMetaAt block.data with
          | some metaCap => jsTrim metaCap
          | none => ""
        let metaParts0 :=
          ((jsSplit rawMeta "  ").map
            (fun item => String.mk (trimChars (wsNormalize item.data)))).filter
            (fun item => item ≠ "")
        let location := metaParts0.headD search.country
        let metaParts := metaParts0.tail
        let postedText :=
          match metaParts.find? (fun item => testRelTime item) with
          | some p => p
          | none =>
            match metaParts.find? (fun item => testToday item) with
            | some p => p
            | none => ""
        some
          { title := jsTrim titleCap
            company := jsTrim companyCap
            jobUrl := jobUrl
            companyUrl := some companyUrl
            locationLine := location
            postedText := postedText
            metaTags := metaParts
            countryGuess := (inferCountry location).getD search.country
            search := search }

/-- `parseMarkdown(markdown, search)` from the script. -/
def parseMarkdown (markdown : String) (search : SearchConfig) : List RawJob :=
  let cleaned := jsSplitLast markdown "Markdown Content:"
  if cleaned = "" then []
  else
    let segs := jsSplit cleaned "\n*   "
    let blocks :=
      (match segs with
        | [] => []
        | first :: rest => jsTrim first :: rest.map (fun b => "*   " ++ jsTrim b)).filter
        (fun b => jsStartsWith b "*")
    blocks.filterMap (fun block => parseBlock block search)

/-! ### Search orchestrator -/

/-- The I/O environment: what each fetch would return (`none` models a
thrown fetch error) and the run timestamp. -/
structure Env where
  searchPage : SearchConfig → Nat → Option String
  detailPage : String → Option String
  now : String

/-- Loop control after processing one listing: `continue`, `break` out of
the page's listing loop, or `return` out of the whole search. -/
inductive Ctl
  | cont
  | breakPage
  | retSearch
  deriving DecidableEq

/-- `raw.jobUrl.split("?")[0]`. -/
def canonicalOf (url : String) : String :=
  String.mk ((splitAux ("?").data url.data 0 []).headD [])

/-- `countByCountry(country)` from the script (over the accumulated map's
values). -/
def countByCountry (jobs : List JobEntry) (country : String) : Nat :=
  jobs.foldl
    (fun total job =>
      if jsIncludes (lowerStr job.country) (lowerStr country) then total + 1 else total)
    0

/-- The `JobEntry` object literal built for an accepted listing. -/
def mkEntry (env : Env) (raw : RawJob) (canonicalUrl : String) (visaInfo : VisaInfo)
    (reasons : List String) : JobEntry :=
  { id := canonicalUrl
    title := raw.title
    company := raw.company
    applyUrl := canonicalUrl
    companyUrl := raw.companyUrl
    location := raw.locationLine
    country := raw.countryGuess
    posted := if raw.postedText = "" then "Recently posted" else raw.postedText
    meta := raw.metaTags
    matchReasons := reasons
    visa := ⟨visaInfo.status, visaInfo.evidence⟩
    searchLabel := raw.search.label
    searchKeywords := raw.search.keywords
    source := "LinkedIn"
    fetchedAt := env.now }

/-- The guarded visa fetch: `try { detectVisa } catch { Not mentioned with
empty detail text }` (a failed fetch is `env.detailPage _ = none`). -/
def visaInfoOf (env : Env) (raw : RawJob) : VisaInfo :=
  match env.detailPage raw.jobUrl with
  | some text => detectVisaPure text
  | none => ⟨VisaStatus.notMentioned, none, ""⟩

/-- The record built for an accepted listing. -/
def entryOf (env : Env) (raw : RawJob) : JobEntry :=
  mkEntry env raw (canonicalOf raw.jobUrl) (visaInfoOf env raw)
    (buildMatchReasons raw (visaInfoOf env raw).detailText)

/-- Insertion of an accepted listing (`JOBS.set`) followed by the
per-country cap check that returns out of the whole search. -/
def acceptListing (env : Env) (search : SearchConfig) (jobs : List JobEntry)
    (raw : RawJob) : List JobEntry × Ctl :=
  if search.maxJobs ≤ countByCountry (jobs ++ [entryOf env raw]) search.country
  then (jobs ++ [entryOf env raw], Ctl.retSearch)
  else (jobs ++ [entryOf env raw], Ctl.cont)

/-- The body of the `for (const raw of parsed)` loop in `processSearch`:
the filter chain in source order, then `acceptListing`. -/
def processListing (env : Env) (search : SearchConfig) (jobs : List JobEntry)
    (raw : RawJob) : List JobEntry × Ctl :=
  if jsIncludes (lowerStr raw.title) "remote" then (jobs, Ctl.cont)
  else if isRemote raw.metaTags raw.locationLine then (jobs, Ctl.cont)
  else if !isRelevantTitle raw.title then (jobs, Ctl.cont)
  else if jsIncludes (lowerStr raw.company) "twine" then (jobs, Ctl.cont)
  else if jobs.any (fun job => job.id == canonicalOf raw.jobUrl) then (jobs, Ctl.cont)
  else if !jsIncludes (lowerStr raw.countryGuess) (lowerStr search.country) then (jobs, Ctl.cont)
  else if 200 ≤ jobs.length then (jobs, Ctl.breakPage)
  else acceptListing env search jobs raw

/-- Run the listing loop over one parsed page; the `Bool` records whether
the loop issued the early `return` of the whole search. -/
def processPage (env : Env) (search : SearchConfig) :
    List RawJob → List JobEntry → List JobEntry × Bool
  | [], jobs => (jobs, false)
  | raw :: rest, jobs =>
    match processListing env search jobs raw with
    | (j, Ctl.cont) => processPage env search rest j
    | (j, Ctl.breakPage) => (j, false)
    | (j, Ctl.retSearch) => (j, true)

/-- The pagination offsets `start = 0, 25, 50` (`start <= MAX_START = 50`,
step 25). -/
def searchStarts : List Nat := [0, 25, 50]

/-- The pagination loop of `processSearch`: each page fetch may fail
(`none`, modelling a thrown `fetchText`), lack the sentinel, or parse to
zero listings — each of which breaks the loop. -/
def processPages (env : Env) (search : SearchConfig) :
    List Nat → List JobEntry → List JobEntry
  | [], jobs => jobs
  | start :: rest, jobs =>
    match env.searchPage search start with
    | none => jobs
    | some text =>
      if !jsIncludes text "Markdown Content:" then jobs
      else if (parseMarkdown text search).isEmpty then jobs
      else
        match processPage env search (parseMarkdown text search) jobs with
        | (j, true) => j
        | (j, false) => processPages env search rest j

/-- `processSearch(search)` from the script, over the accumulated state. -/
def processSearch (env : Env) (search : SearchConfig) (jobs : List JobEntry) :
    List JobEntry :=
  processPages env search searchStarts jobs

/-- The `for (const search of SEARCHES)` loop of `main`, with the top-level
per-country skip check. -/
def runSearches (env : Env) : List SearchConfig → List JobEntry → List JobEntry
  | [], jobs => jobs
  | search :: rest, jobs =>
    if search.maxJobs ≤ countByCountry jobs search.country then runSearches env rest jobs
    else runSearches env rest (processSearch env search jobs)

/-- All records accumulated by one full run, in insertion order. -/
def mainAccum (env : Env) : List JobEntry := runSearches env SEARCHES []

/-! ### Final sort (`Array.from(JOBS.values()).sort(...)`) -/

/-- The comparator `a.country.localeCompare(b.country) ||
a.title.localeCompare(b.title)` over an abstract locale comparison `lc`. -/
def jobCmp (lc : String → String → Ordering) (a b : JobEntry) : Ordering :=
  match lc a.country b.country with
  | Ordering.eq => lc a.title b.title
  | o => o

/-- "Comparator at most": the sorted output satisfies this on adjacent
pairs. -/
def jobLe (lc : String → String → Ordering) (a b : JobEntry) : Bool :=
  match jobCmp lc a b with
  | Ordering.gt => false
  | _ => true

/-- Insertion into a sorted list (model of the engine's comparison sort). -/
def insertJob (le : JobEntry → JobEntry → Bool) (x : JobEntry) :
    List JobEntry → List JobEntry
  | [] => [x]
  | y :: ys => if le x y then x :: y :: ys else y :: insertJob le x ys

/-- Model of `Array.prototype.sort` with a consistent comparator. -/
def sortJobs (le : JobEntry → JobEntry → Bool) : List JobEntry → List JobEntry
  | [] => []
  | x :: xs => insertJob le x (sortJobs le xs)

/-- The final `jobs` array of the output payload. -/
def mainJobs (env : Env) (lc : String → String → Ordering) : List JobEntry :=
  sortJobs (jobLe lc) (mainAccum env)

/-! ### Shape predicates on phrase literals -/

/-- A phrase tail in which every whitespace character is a single space
followed by a non-whitespace character (so whitespace normalization leaves
the phrase intact), and which does not end in whitespace. -/
def goodRest : List Char → Bool
  | [] => true
  | [c] => !jsWs c
  | c :: d :: rest => (!jsWs c || (c == ' ' && !jsWs d)) && goodRest (d :: rest)

/-- A non-empty phrase starting with a non-whitespace character whose tail
is `goodRest`. -/
def goodPat (l : List Char) : Bool :=
  match l with
  | [] => false
  | c :: _ => !jsWs c && goodRest l

/-! ### Invariants -/

/-- Deduplication invariant of the accumulated result set: ids are pairwise
distinct and every id equals its record's apply URL. -/
def IdsOk (jobs : List JobEntry) : Prop :=
  jobs.Pairwise (fun a b => a.id ≠ b.id) ∧ ∀ e ∈ jobs, e.id = e.applyUrl

/-! ### Concrete fixtures used by witnesses and counterexamples -/

/-- A Belgium search with a per-country cap of 2. -/
def searchBE : SearchConfig :=
  ⟨"Belgium", "Belgium", "digital marketing", "Digital Marketing (Belgium)", 2⟩

/-- A listing page (in the upstream markdown dialect) parsing to three
valid, non-duplicate Belgium listings. -/
def pageBE : String :=
  "Title: results\n\nMarkdown Content:\n*   [Digital Marketing Lead](https://www.linkedin.com/jobs/view/101?refId=aa)\n#### [Acme One](https://example.com/one)\n\n Brussels, Belgium  2 days ago\nEnd\n*   [Brand Content Strategist](https://www.linkedin.com/jobs/view/102)\n#### [Acme Two](https://example.com/two)\n\n Antwerp, Belgium  3 days ago\nEnd\n*   [Social Media Coordinator](https://www.linkedin.com/jobs/view/103)\n#### [Acme Three](https://example.com/three)\n\n Ghent, Belgium  5 days ago\nEnd"

/-- A second page holding a fourth valid Belgium listing: if pagination
continued after the cap was reached, this listing would be added. -/
def pageBE2 : String :=
  "Markdown Content:\n*   [Creative Communications Officer](https://www.linkedin.com/jobs/view/104)\n#### [Acme Four](https://example.com/four)\n\n Leuven, Belgium  1 day ago\nEnd"

/-- Environment serving `pageBE` at offset 0 and `pageBE2` afterwards;
every visa-detail fetch fails. -/
def envBE : Env :=
  { searchPage := fun _ start => if start = 0 then some pageBE else some pageBE2
    detailPage := fun _ => none
    now := "T0" }

/-- Fallback value for list indexing in fixtures. -/
def rawFallback : RawJob :=
  ⟨"", "", "", none, "", "", [], "", searchBE⟩

/-- The first parsed Belgium listing. -/
def rawBE1 : RawJob := (parseMarkdown pageBE searchBE).getD 0 rawFallback

/-- The third parsed Belgium listing. -/
def rawBE3 : RawJob := (parseMarkdown pageBE searchBE).getD 2 rawFallback

/-- The accumulated state after the capped Belgium search. -/
def jobsMidBE : List JobEntry := processSearch envBE searchBE []

/-- A markdown document with listing content but no sentinel marker. -/
def docNoSent : String :=
  "*   [Digital Marketing Lead](https://www.linkedin.com/jobs/view/301)\n#### [NoSent Co](https://example.com/ns)"

/-- An Ireland search with a per-country cap of 2. -/
def searchIE : SearchConfig :=
  ⟨"Ireland", "Dublin, County Dublin, Ireland", "digital marketing manager",
   "Digital Marketing Manager (Ireland)", 2⟩

/-- A page with one valid Dublin listing. -/
def pageIE : String :=
  "Markdown Content:\n*   [Digital Marketing Manager](https://www.linkedin.com/jobs/view/201)\n#### [Hib Co](https://example.com/hib)\n\n Dublin, County Dublin, Ireland  3 days ago\nEnd"

/-- Environment serving `pageIE` at offset 0 only. -/
def envIE : Env :=
  { searchPage := fun _ start => if start = 0 then some pageIE else none
    detailPage := fun _ => none
    now := "T0" }

/-- The parsed Dublin listing. -/
def rawIE : RawJob := (parseMarkdown pageIE searchIE).getD 0 rawFallback

/-- A stored record whose country string merely contains "Ireland". -/
def niEntry : JobEntry :=
  ⟨"https://example.org/ni/1", "Content Lead", "NI Co", "https://example.org/ni/1",
   none, "Belfast", "Northern Ireland", "Recently posted", [],
   ["Matches X"], ⟨VisaStatus.notMentioned, none⟩, "X", "x", "LinkedIn", "T0"⟩

/-- A second such record with a distinct id. -/
def niEntry2 : JobEntry :=
  ⟨"https://example.org/ni/2", "Brand Officer", "NI Co", "https://example.org/ni/2",
   none, "Derry", "Northern Ireland", "Recently posted", [],
   ["Matches X"], ⟨VisaStatus.notMentioned, none⟩, "X", "x", "LinkedIn", "T0"⟩

/-- An environment whose every fetch fails. -/
def envTrivial : Env :=
  ⟨fun _ _ => none, fun _ => none, ""⟩

/-- A degenerate but consistent locale comparison (all strings equal). -/
def lcEq : String → String → Ordering := fun _ _ => Ordering.eq

/-- A listing whose canonical URL is already stored. -/
def rawDup : RawJob :=
  ⟨"Digital Marketing Lead", "Dup Co", "https://www.linkedin.com/jobs/view/7?x=1",
   none, "Brussels, Belgium", "", [], "Belgium", searchBE⟩

/-- A stored record occupying `rawDup`'s canonical URL. -/
def dupEntry : JobEntry :=
  ⟨"https://www.linkedin.com/jobs/view/7", "Old Title", "Old Co",
   "https://www.linkedin.com/jobs/view/7", none, "Brussels, Belgium", "Belgium",
   "Recently posted", [], ["Matches Digital Marketing (Belgium)"],
   ⟨VisaStatus.notMentioned, none⟩, "Digital Marketing (Belgium)",
   "digital marketing", "LinkedIn", "T0"⟩

end JobFetch

namespace JobFetch

/-! ### First theorems: fetch retry behaviour and title relevance -/

/-- Claim C6 helper: membership plus a true predicate makes `List.any` true. -/
theorem any_of_mem {α : Type} {p : α → Bool} {l : List α} {a : α}
    (ha : a ∈ l) (hp : p a = true) : l.any p = true := by
  exact List.any_eq_true.mpr ⟨a, ha, hp⟩

/-- Claim C6: for every title string, if any exclusion keyword occurs as a
case-insensitive substring of the title, `isRelevantTitle` returns `false`,
regardless of which inclusion keywords are present. -/
theorem c6_exclusion_dominates (title keyword : String)
    (hmem : keyword ∈ excludedKeywords)
    (hsub : jsIncludes (lowerStr title) keyword = true) :
    isRelevantTitle title = false := by
  unfold isRelevantTitle
  by_cases hreq : requiredKeywords.any (fun k => jsIncludes (lowerStr title) k) = true
  · have hexc : excludedKeywords.any (fun k => jsIncludes (lowerStr title) k) = true :=
      any_of_mem hmem hsub
    simp [hreq, hexc]
  · simp only [Bool.not_eq_true] at hreq
    simp [hreq]

/-- Witness for C6 at the concrete title "Marketing Engineer". -/
theorem c6_witness :
    ("engineer" ∈ excludedKeywords
      ∧ jsIncludes (lowerStr "Marketing Engineer") "engineer" = true)
    ∧ isRelevantTitle "Marketing Engineer" = false := by
  refine ⟨⟨by decide, by decide⟩, ?_⟩
  exact c6_exclusion_dominates "Marketing Engineer" "engineer" (by decide) (by decide)

/-- Claim C4: `fetchText` retries at most 4 times.  A response sequence of
three 429s followed by a 200 succeeds with the final body; a sequence of
five consecutive 429s fails with `RetriesExhausted` (the fifth request is
answered but the fifth attempt exceeds the retry cap). -/
theorem c4_retry_cap :
    fetchTextModel [⟨429, ""⟩, ⟨429, ""⟩, ⟨429, ""⟩, ⟨200, "final body"⟩] 1
      = FetchResult.ok "final body"
    ∧ fetchTextModel (List.replicate 5 ⟨429, ""⟩) 1 = FetchResult.retriesExhausted := by
  constructor
  · rfl
  · rfl

/-- Claim C3 counterexample: a 500 response whose body contains the
rate-limit marker "Too Many Requests" does NOT fail immediately with
`HttpError 500`; the body-marker branch fires first and the request is
retried (here the retry succeeds, so the final result is `ok`). -/
theorem c3_counterexample :
    fetchTextModel [⟨500, "Too Many Requests"⟩, ⟨200, "hello"⟩] 1 = FetchResult.ok "hello"
    ∧ fetchTextModel [⟨500, "Too Many Requests"⟩, ⟨200, "hello"⟩] 1
        ≠ FetchResult.httpError 500 := by
  constructor
  · rfl
  · decide

/-- Claim C3 (amended): a response whose status is neither 2xx nor 429 fails
immediately with `HttpError` of that status — provided its body does not
contain a rate-limit marker phrase (the script checks the body markers on
every response, not only on 200s). -/
theorem c3_http_error_immediate (r : HttpResp) (rest : List HttpResp) (attempt : Nat)
    (hstatus : r.status ≠ 429)
    (hbody : rateLimitBody r.body = false)
    (hok : respOk r = false) :
    fetchTextModel (r :: rest) attempt = FetchResult.httpError r.status := by
  unfold fetchTextModel
  have h1 : (r.status == 429) = false := by
    exact beq_eq_false_iff_ne.mpr hstatus
  simp [h1, hbody, hok]

/-- Witness for the amended C3 at a concrete 503 response. -/
theorem c3_witness :
    ((503 : Nat) ≠ 429 ∧ rateLimitBody "oops" = false ∧ respOk ⟨503, "oops"⟩ = false)
    ∧ fetchTextModel [⟨503, "oops"⟩, ⟨200, "x"⟩] 1 = FetchResult.httpError 503 := by
  refine ⟨⟨by decide, by decide, by decide⟩, ?_⟩
  exact c3_http_error_immediate ⟨503, "oops"⟩ [⟨200, "x"⟩] 1 (by decide) (by decide) (by decide)

/-! ### Behaviour of the split scanner (for claim C2) -/

/-- Consuming pending separator characters. -/
theorem splitAux_skip (sep : List Char) (s : List Char) :
    ∀ (l acc : List Char), splitAux sep (s ++ l) s.length acc = splitAux sep l 0 acc := by
  induction s with
  | nil => intro l acc; rfl
  | cons c s ih => intro l acc; exact ih l acc

theorem isPrefixOf_append_self (sep l : List Char) : sep.isPrefixOf (sep ++ l) = true := by
  rw [ List.isPrefixOf_iff_prefix]
  exact ⟨l, rfl⟩

/-- A separator occurrence at the front emits the accumulator and restarts
after the separator. -/
theorem splitAux_cons_sep (sep : List Char) (hsep : sep ≠ []) (l acc : List Char) :
    splitAux sep (sep ++ l) 0 acc = acc :: splitAux sep l 0 [] := by
  obtain ⟨c, sep2, rfl⟩ := List.exists_cons_of_ne_nil hsep
  have hpre := isPrefixOf_append_self (c :: sep2) l
  rw [List.cons_append] at hpre
  show splitAux (c :: sep2) (c :: (sep2 ++ l)) 0 acc = _
  rw [splitAux, if_pos hpre]
  have : (c :: sep2).length - 1 = sep2.length := by simp
  rw [this, splitAux_skip]

theorem indexOfSub_none_cons {needle : List Char} {c : Char} {cs : List Char}
    (h : indexOfSub needle (c :: cs) = none) :
    needle.isPrefixOf (c :: cs) = false ∧ indexOfSub needle cs = none := by
  unfold indexOfSub at h
  cases hp : needle.isPrefixOf (c :: cs) with
  | true => rw [hp] at h; simp at h
  | false =>
    rw [hp] at h
    simp only [Bool.false_eq_true, if_false, Option.map_eq_none'] at h
    exact ⟨rfl, h⟩

/-- Without any separator occurrence, the whole input is one segment. -/
theorem splitAux_no_occ (sep : List Char) :
    ∀ (l acc : List Char), indexOfSub sep l = none → splitAux sep l 0 acc = [acc ++ l] := by
  intro l
  induction l with
  | nil => intro acc _; simp [splitAux]
  | cons c cs ih =>
    intro acc h
    obtain ⟨hp, hrest⟩ := indexOfSub_none_cons h
    rw [splitAux, if_neg (by simp [hp])]
    rw [ih (acc ++ [c]) hrest]
    simp

theorem splitAux_ne_nil (sep : List Char) :
    ∀ (l : List Char) (skip : Nat) (acc : List Char), splitAux sep l skip acc ≠ [] := by
  intro l
  induction l with
  | nil => intro skip acc; simp [splitAux]
  | cons c cs ih =>
    intro skip acc
    cases skip with
    | zero =>
      rw [splitAux]
      split
      · simp
      · exact ih 0 (acc ++ [c])
    | succ k => rw [splitAux]; exact ih k acc

theorem getLastD_irrel {α : Type} (l : List α) (h : l ≠ []) (d₁ d₂ : α) :
    l.getLastD d₁ = l.getLastD d₂ := by
  cases l with
  | nil => exact absurd rfl h
  | cons a m => rw [List.getLastD_cons, List.getLastD_cons]

/-- `split(sentinel).pop()` on a sentinel-free document yields the whole
document. -/
theorem jsSplitLast_no_sentinel (doc : String)
    (h : jsIncludes doc "Markdown Content:" = false) :
    jsSplitLast doc "Markdown Content:" = doc := by
  have hn : indexOfSub ("Markdown Content:").data doc.data = none := by
    unfold jsIncludes at h
    cases hx : indexOfSub ("Markdown Content:").data doc.data with
    | none => rfl
    | some v => rw [hx] at h; simp at h
  unfold jsSplitLast
  rw [splitAux_no_occ _ _ _ hn]
  rfl

/-- `split(sentinel).pop()` after prepending the sentinel to a sentinel-free
document also yields the document. -/
theorem jsSplitLast_prepended (doc : String)
    (h : jsIncludes doc "Markdown Content:" = false) :
    jsSplitLast ("Markdown Content:" ++ doc) "Markdown Content:" = doc := by
  have hn : indexOfSub ("Markdown Content:").data doc.data = none := by
    unfold jsIncludes at h
    cases hx : indexOfSub ("Markdown Content:").data doc.data with
    | none => rfl
    | some v => rw [hx] at h; simp at h
  have hdata : ("Markdown Content:" ++ doc).data = ("Markdown Content:").data ++ doc.data := rfl
  unfold jsSplitLast
  rw [hdata, splitAux_cons_sep _ (by decide) _ _, splitAux_no_occ _ _ _ hn]
  rfl

/-- Claim C2 counterexample: a document with listing content but no
"Markdown Content:" sentinel parses to a NON-empty listing sequence —
`parseMarkdown` does not return empty when the marker is absent. -/
theorem c2_counterexample :
    jsIncludes docNoSent "Markdown Content:" = false
    ∧ parseMarkdown docNoSent searchBE ≠ [] := by
  constructor
  · rfl
  · decide

/-- Claim C2 (amended): when the sentinel is absent, nothing is discarded —
the whole document is treated as the listing content, exactly as if the
sentinel preceded it (so the result can be non-empty; only the orchestrator
separately skips sentinel-free pages). -/
theorem c2_sentinel_free_parses_all (doc : String) (search : SearchConfig)
    (h : jsIncludes doc "Markdown Content:" = false) :
    parseMarkdown doc search = parseMarkdown ("Markdown Content:" ++ doc) search := by
  unfold parseMarkdown
  rw [jsSplitLast_no_sentinel doc h, jsSplitLast_prepended doc h]

/-- Witness for the amended C2 at the concrete sentinel-free document. -/
theorem c2_witness :
    jsIncludes docNoSent "Markdown Content:" = false
    ∧ parseMarkdown docNoSent searchBE
        = parseMarkdown ("Markdown Content:" ++ docNoSent) searchBE :=
  ⟨by rfl, c2_sentinel_free_parses_all docNoSent searchBE (by rfl)⟩

/-! ### Visa detection: priority of the positive phrase group (claim C1) -/

/-- Claim C1 counterexample: a detail-page body whose whole text is
"no visa sponsorship" is classified as Sponsorship-Mentioned ("Yes"), not
Sponsorship-Denied ("No"): the positive alternation matches its substring
"visa sponsorship" and the positive group is checked first. -/
theorem c1_counterexample :
    (detectVisaPure "no visa sponsorship").status = VisaStatus.yes
    ∧ (detectVisaPure "no visa sponsorship").status ≠ VisaStatus.no := by
  constructor
  · rfl
  · decide

/-! ### Deduplication invariants (claim C5) -/

theorem acceptListing_fst (env : Env) (search : SearchConfig) (jobs : List JobEntry)
    (raw : RawJob) :
    (acceptListing env search jobs raw).1 = jobs ++ [entryOf env raw] := by
  unfold acceptListing
  split <;> rfl

theorem entryOf_id (env : Env) (raw : RawJob) :
    (entryOf env raw).id = canonicalOf raw.jobUrl := rfl

theorem entryOf_applyUrl (env : Env) (raw : RawJob) :
    (entryOf env raw).applyUrl = canonicalOf raw.jobUrl := rfl

/-- One listing step preserves the deduplication invariant. -/
theorem processListing_idsOk (env : Env) (search : SearchConfig) (raw : RawJob)
    {jobs : List JobEntry} (h : IdsOk jobs) :
    IdsOk (processListing env search jobs raw).1 := by
  unfold processListing
  split_ifs with h1 h2 h3 h4 h5 h6 h7
  · exact h
  · exact h
  · exact h
  · exact h
  · exact h
  · exact h
  · exact h
  · rw [acceptListing_fst]
    have h5' : (jobs.any fun job => job.id == canonicalOf raw.jobUrl) = false :=
      Bool.eq_false_iff.mpr h5
    constructor
    · rw [List.pairwise_append]
      refine ⟨h.1, by simp, ?_⟩
      intro a ha b hb
      simp only [List.mem_singleton] at hb
      subst hb
      rw [entryOf_id]
      have := List.any_eq_false.mp h5' a ha
      simpa using this
    · intro e he
      rcases List.mem_append.mp he with h' | h'
      · exact h.2 e h'
      · simp only [List.mem_singleton] at h'
        subst h'
        rfl

/-- One page preserves the deduplication invariant. -/
theorem processPage_idsOk (env : Env) (search : SearchConfig) :
    ∀ (raws : List RawJob) (jobs : List JobEntry), IdsOk jobs →
      IdsOk (processPage env search raws jobs).1 := by
  intro raws
  induction raws with
  | nil => intro jobs h; exact h
  | cons raw rest ih =>
    intro jobs h
    have hstep := processListing_idsOk env search raw h
    unfold processPage
    cases hpl : processListing env search jobs raw with
    | mk j c =>
      rw [hpl] at hstep
      cases c
      · exact ih j hstep
      · exact hstep
      · exact hstep

/-- The pagination loop preserves the deduplication invariant. -/
theorem processPages_idsOk (env : Env) (search : SearchConfig) :
    ∀ (starts : List Nat) (jobs : List JobEntry), IdsOk jobs →
      IdsOk (processPages env search starts jobs) := by
  intro starts
  induction starts with
  | nil => intro jobs h; exact h
  | cons start rest ih =>
    intro jobs h
    unfold processPages
    cases hsp : env.searchPage search start with
    | none => exact h
    | some text =>
      simp only []
      split_ifs with ha hb
      · exact h
      · exact h
      · cases hpp : processPage env search (parseMarkdown text search) jobs with
        | mk j b =>
          have hj : IdsOk j := by
            have h2 := processPage_idsOk env search (parseMarkdown text search) jobs h
            rw [hpp] at h2
            exact h2
          cases b
          · exact ih j hj
          · exact hj

/-- The whole run preserves the deduplication invariant. -/
theorem runSearches_idsOk (env : Env) :
    ∀ (searches : List SearchConfig) (jobs : List JobEntry), IdsOk jobs →
      IdsOk (runSearches env searches jobs) := by
  intro searches
  induction searches with
  | nil => intro jobs h; exact h
  | cons s rest ih =>
    intro jobs h
    unfold runSearches
    split
    · exact ih jobs h
    · exact ih _ (processPages_idsOk env s searchStarts jobs h)

theorem mainAccum_idsOk (env : Env) : IdsOk (mainAccum env) :=
  runSearches_idsOk env SEARCHES [] ⟨List.Pairwise.nil, by simp⟩

/-- Claim C5: across any single run the accumulated ids are pairwise
distinct, each id equals its record's `applyUrl`, the canonical URL strips
the query string, and a listing whose canonical URL is already stored is
skipped without modifying the state (and the accepted entry's id/applyUrl
are exactly the canonicalized listing URL). -/
theorem c5_dedup_invariants (env : Env) :
    (mainAccum env).Pairwise (fun a b => a.id ≠ b.id)
    ∧ (∀ e ∈ mainAccum env, e.id = e.applyUrl)
    ∧ canonicalOf "https://www.linkedin.com/jobs/view/123?refId=abc"
        = "https://www.linkedin.com/jobs/view/123"
    ∧ (∀ (search : SearchConfig) (jobs : List JobEntry) (raw : RawJob),
        (jobs.any fun job => job.id == canonicalOf raw.jobUrl) = true →
        processListing env search jobs raw = (jobs, Ctl.cont))
    ∧ (∀ (search : SearchConfig) (jobs : List JobEntry) (raw : RawJob) (entry : JobEntry),
        (processListing env search jobs raw).1 = jobs ++ [entry] →
        entry.id = canonicalOf raw.jobUrl ∧ entry.applyUrl = canonicalOf raw.jobUrl) := by
  refine ⟨(mainAccum_idsOk env).1, (mainAccum_idsOk env).2, by rfl, ?_, ?_⟩
  · intro search jobs raw hdup
    unfold processListing
    split_ifs with h1 h2 h3 h4 <;> rfl
  · intro search jobs raw entry hshape
    unfold processListing at hshape
    split_ifs at hshape with h1 h2 h3 h4 h5 h6 h7
    all_goals try
      (exfalso
       have hl := congrArg List.length hshape
       simp only [List.length_append, List.length_cons, List.length_nil] at hl
       omega)
    rw [acceptListing_fst] at hshape
    have he : entryOf env raw = entry := by
      have h2 := List.append_cancel_left hshape
      simpa using h2
    rw [← he]
    exact ⟨rfl, rfl⟩

/-- Witness for C5's conditional parts: a listing whose canonical URL is
already present is dropped with the state unchanged. -/
theorem c5_witness :
    ([dupEntry].any fun job => job.id == canonicalOf rawDup.jobUrl) = true
    ∧ processListing envTrivial searchBE [dupEntry] rawDup = ([dupEntry], Ctl.cont) := by
  refine ⟨by decide, ?_⟩
  exact (c5_dedup_invariants envTrivial).2.2.2.1 searchBE [dupEntry] rawDup (by decide)

/-! ### Per-country cap termination (claim C7) -/

theorem processListing_shape (env : Env) (search : SearchConfig) (jobs : List JobEntry)
    (raw : RawJob) :
    processListing env search jobs raw = (jobs, Ctl.cont)
    ∨ processListing env search jobs raw = (jobs, Ctl.breakPage)
    ∨ processListing env search jobs raw = acceptListing env search jobs raw := by
  unfold processListing
  split_ifs <;> simp

/-- Claim C7: whenever an accepted record brings the running count for the
search's country up to `maxJobs`, the listing step signals the immediate
return of the whole search; concretely, with a Belgium cap of 2 and a page
parsing to three valid non-duplicate Belgium listings (and a further page
with a fourth), exactly the first two records are produced. -/
theorem c7_country_cap :
    (∀ (env : Env) (search : SearchConfig) (jobs : List JobEntry) (raw : RawJob),
        search.maxJobs ≤ countByCountry (processListing env search jobs raw).1 search.country →
        (processListing env search jobs raw).1 ≠ jobs →
        (processListing env search jobs raw).2 = Ctl.retSearch)
    ∧ (processSearch envBE searchBE []).map (fun e => e.id)
        = ["https://www.linkedin.com/jobs/view/101", "https://www.linkedin.com/jobs/view/102"] := by
  constructor
  · intro env search jobs raw hcap hchanged
    rcases processListing_shape env search jobs raw with h | h | h
    · rw [h] at hchanged; exact absurd rfl hchanged
    · rw [h] at hchanged; exact absurd rfl hchanged
    · rw [h] at hcap ⊢
      unfold acceptListing at hcap ⊢
      split_ifs at hcap ⊢ with hc
      · rfl
      · exact absurd hcap hc
  · rfl

/-- Witness for C7's conditional part at the concrete Belgium run: the
third listing's acceptance hits the cap and returns the search. -/
theorem c7_witness :
    (searchBE.maxJobs
        ≤ countByCountry (processListing envBE searchBE jobsMidBE rawBE3).1 searchBE.country
      ∧ (processListing envBE searchBE jobsMidBE rawBE3).1 ≠ jobsMidBE)
    ∧ (processListing envBE searchBE jobsMidBE rawBE3).2 = Ctl.retSearch := by
  refine ⟨⟨by decide, by decide⟩, ?_⟩
  exact c7_country_cap.1 envBE searchBE jobsMidBE rawBE3 (by decide) (by decide)

/-! ### Visa-fetch failure degrades gracefully (claim C9) -/

/-- Claim C9: if the visa-detail fetch fails but the listing passes every
filter, the listing still yields a record with status Not-Mentioned, no
evidence, and match reasons computed from the title with empty detail
text; control continues through the normal cap check (no abort). -/
theorem c9_visa_failure_degrades (env : Env) (search : SearchConfig)
    (jobs : List JobEntry) (raw : RawJob)
    (hfail : env.detailPage raw.jobUrl = none)
    (h1 : jsIncludes (lowerStr raw.title) "remote" = false)
    (h2 : isRemote raw.metaTags raw.locationLine = false)
    (h3 : isRelevantTitle raw.title = true)
    (h4 : jsIncludes (lowerStr raw.company) "twine" = false)
    (h5 : (jobs.any fun job => job.id == canonicalOf raw.jobUrl) = false)
    (h6 : jsIncludes (lowerStr raw.countryGuess) (lowerStr search.country) = true)
    (h7 : jobs.length < 200) :
    ∃ entry,
      processListing env search jobs raw
        = (jobs ++ [entry],
           if search.maxJobs ≤ countByCountry (jobs ++ [entry]) search.country
           then Ctl.retSearch else Ctl.cont)
      ∧ entry.visa.status = VisaStatus.notMentioned
      ∧ entry.visa.evidence = none
      ∧ entry.matchReasons = buildMatchReasons raw "" := by
  have hv : visaInfoOf env raw = ⟨VisaStatus.notMentioned, none, ""⟩ := by
    unfold visaInfoOf
    rw [hfail]
  refine ⟨entryOf env raw, ?_, ?_, ?_, ?_⟩
  · unfold processListing
    rw [if_neg (by simp [h1]), if_neg (by simp [h2]), if_neg (by simp [h3]),
        if_neg (by simp [h4]), if_neg (by simp [h5]), if_neg (by simp [h6]),
        if_neg (Nat.not_le.mpr h7)]
    unfold acceptListing
    split_ifs <;> rfl
  · show (mkEntry env raw _ (visaInfoOf env raw) _).visa.status = _
    rw [hv]
    rfl
  · show (mkEntry env raw _ (visaInfoOf env raw) _).visa.evidence = _
    rw [hv]
    rfl
  · show buildMatchReasons raw (visaInfoOf env raw).detailText = _
    rw [hv]

/-- Witness for C9 at the first Belgium listing with every detail fetch
failing. -/
theorem c9_witness :
    (envBE.detailPage rawBE1.jobUrl = none
      ∧ jsIncludes (lowerStr rawBE1.title) "remote" = false
      ∧ isRemote rawBE1.metaTags rawBE1.locationLine = false
      ∧ isRelevantTitle rawBE1.title = true
      ∧ jsIncludes (lowerStr rawBE1.company) "twine" = false
      ∧ (([] : List JobEntry).any fun job => job.id == canonicalOf rawBE1.jobUrl) = false
      ∧ jsIncludes (lowerStr rawBE1.countryGuess) (lowerStr searchBE.country) = true
      ∧ ([] : List JobEntry).length < 200)
    ∧ ∃ entry,
        processListing envBE searchBE [] rawBE1
          = ([] ++ [entry],
             if searchBE.maxJobs ≤ countByCountry ([] ++ [entry]) searchBE.country
             then Ctl.retSearch else Ctl.cont)
        ∧ entry.visa.status = VisaStatus.notMentioned
        ∧ entry.visa.evidence = none
        ∧ entry.matchReasons = buildMatchReasons rawBE1 "" := by
  refine ⟨⟨rfl, by decide, by decide, by decide, by decide, by decide, by decide, by decide⟩, ?_⟩
  exact c9_visa_failure_degrades envBE searchBE [] rawBE1 rfl (by decide) (by decide)
    (by decide) (by decide) (by decide) (by decide) (by decide)

/-! ### Per-country counting by substring containment (claim C10) -/

theorem foldl_count_eq (p : JobEntry → Bool) :
    ∀ (jobs : List JobEntry) (n : Nat),
      jobs.foldl (fun total j => if p j then total + 1 else total) n
        = n + (jobs.filter p).length := by
  intro jobs
  induction jobs with
  | nil => intro n; simp
  | cons j rest ih =>
    intro n
    cases hp : p j with
    | true =>
      simp only [List.foldl_cons, hp, if_true, List.filter_cons, List.length_cons, ih]
      omega
    | false =>
      simp only [List.foldl_cons, hp, if_false, List.filter_cons, ih]
      simp [hp]

/-- Claim C10: `countByCountry` counts records whose country contains the
queried country as a case-insensitive substring (not by equality); a record
whose country string is "Northern Ireland" consumes the "Ireland" quota in
both the top-level skip check and the per-search cap check. -/
theorem c10_count_by_substring :
    (∀ (jobs : List JobEntry) (country : String),
        countByCountry jobs country
          = (jobs.filter fun job =>
              jsIncludes (lowerStr job.country) (lowerStr country)).length)
    ∧ countByCountry [niEntry] "Ireland" = 1
    ∧ runSearches envIE [searchIE] [niEntry, niEntry2] = [niEntry, niEntry2]
    ∧ (runSearches envIE [searchIE] []).length = 1
    ∧ (processListing envIE searchIE [niEntry] rawIE).2 = Ctl.retSearch := by
  refine ⟨?_, by decide, by decide, by decide, by decide⟩
  intro jobs country
  unfold countByCountry
  simpa using foldl_count_eq (fun job => jsIncludes (lowerStr job.country) (lowerStr country)) jobs 0

/-! ### Sortedness of the final output (claim C8) -/

theorem ordSwap_eq_eq (o : Ordering) : o.swap = Ordering.eq ↔ o = Ordering.eq := by
  cases o <;> simp [Ordering.swap]

theorem ordSwap_eq_lt (o : Ordering) : o.swap = Ordering.lt ↔ o = Ordering.gt := by
  cases o <;> simp [Ordering.swap]

theorem ordSwap_eq_gt (o : Ordering) : o.swap = Ordering.gt ↔ o = Ordering.lt := by
  cases o <;> simp [Ordering.swap]

theorem jobLe_iff (lc : String → String → Ordering) (a b : JobEntry) :
    jobLe lc a b = true ↔ jobCmp lc a b ≠ Ordering.gt := by
  unfold jobLe
  cases jobCmp lc a b <;> simp

theorem jobCmp_ne_gt (lc : String → String → Ordering) (a b : JobEntry) :
    jobCmp lc a b ≠ Ordering.gt
      ↔ (lc a.country b.country = Ordering.lt
          ∨ (lc a.country b.country = Ordering.eq ∧ lc a.title b.title ≠ Ordering.gt)) := by
  unfold jobCmp
  cases h : lc a.country b.country <;> simp

theorem mem_insertJob (le : JobEntry → JobEntry → Bool) (x y : JobEntry) :
    ∀ (l : List JobEntry), y ∈ insertJob le x l ↔ y = x ∨ y ∈ l := by
  intro l
  induction l with
  | nil => simp [insertJob]
  | cons a l ih =>
    unfold insertJob
    split
    · simp [List.mem_cons]
    · simp only [List.mem_cons, ih]
      tauto

theorem pairwise_insertJob (le : JobEntry → JobEntry → Bool)
    (htot : ∀ a b, le a b = true ∨ le b a = true)
    (htrans : ∀ a b c, le a b = true → le b c = true → le a c = true)
    (x : JobEntry) :
    ∀ (l : List JobEntry), l.Pairwise (fun a b => le a b = true) →
      (insertJob le x l).Pairwise (fun a b => le a b = true) := by
  intro l
  induction l with
  | nil => intro _; simp [insertJob]
  | cons a l ih =>
    intro hl
    rcases List.pairwise_cons.mp hl with ⟨ha, hl2⟩
    unfold insertJob
    split_ifs with hxa
    · refine List.pairwise_cons.mpr ⟨?_, hl⟩
      intro z hz
      rcases List.mem_cons.mp hz with rfl | hz2
      · exact hxa
      · exact htrans x a z hxa (ha z hz2)
    · refine List.pairwise_cons.mpr ⟨?_, ih hl2⟩
      intro z hz
      rcases (mem_insertJob le x z l).mp hz with rfl | hz2
      · rcases htot z a with h | h
        · exact absurd h hxa
        · exact h
      · exact ha z hz2

theorem pairwise_sortJobs (le : JobEntry → JobEntry → Bool)
    (htot : ∀ a b, le a b = true ∨ le b a = true)
    (htrans : ∀ a b c, le a b = true → le b c = true → le a c = true) :
    ∀ (l : List JobEntry), (sortJobs le l).Pairwise (fun a b => le a b = true) := by
  intro l
  induction l with
  | nil => simp [sortJobs]
  | cons x l ih => exact pairwise_insertJob le htot htrans x (sortJobs le l) ih

/-- Claim C8: for every consistent locale comparison, the final `jobs`
sequence is sorted — for every adjacent pair the first record's country is
at most the second's, and on equal countries the first title is at most the
second (ascending country, then ascending title). -/
theorem jobCmp_eq_gt (lc : String → String → Ordering) (a b : JobEntry) :
    jobCmp lc a b = Ordering.gt
      ↔ (lc a.country b.country = Ordering.gt
          ∨ (lc a.country b.country = Ordering.eq ∧ lc a.title b.title = Ordering.gt)) := by
  unfold jobCmp
  cases h : lc a.country b.country <;> simp

/-- Flip one comparison through the swap law. -/
theorem lc_flip {lc : String → String → Ordering}
    (hswap : ∀ a b, lc a b = (lc b a).swap) (s t : String) {o : Ordering}
    (h : lc s t = o) : lc t s = o.swap := by
  have h2 := hswap s t
  rw [h] at h2
  cases ho : lc t s <;> rw [ho] at h2 <;> cases o <;> simp [Ordering.swap] at h2 ⊢

/-- Claim C8: for every consistent locale comparison, the final `jobs`
sequence is sorted — for every adjacent pair the first record's country is
at most the second's, and on equal countries the first title is at most the
second (ascending country, then ascending title). -/
theorem c8_output_sorted (env : Env) (lc : String → String → Ordering)
    (hswap : ∀ a b, lc a b = (lc b a).swap)
    (htrans : ∀ a b c, lc a b ≠ Ordering.gt → lc b c ≠ Ordering.gt → lc a c ≠ Ordering.gt) :
    List.Chain'
      (fun a b =>
        lc a.country b.country ≠ Ordering.gt
        ∧ (lc a.country b.country = Ordering.eq → lc a.title b.title ≠ Ordering.gt))
      (mainJobs env lc) := by
  have htot : ∀ a b : JobEntry, jobLe lc a b = true ∨ jobLe lc b a = true := by
    intro a b
    by_cases h : jobLe lc a b = true
    · exact Or.inl h
    · right
      have hgt : jobCmp lc a b = Ordering.gt := by
        by_contra hne
        exact h ((jobLe_iff lc a b).mpr hne)
      refine (jobLe_iff lc b a).mpr ((jobCmp_ne_gt lc b a).mpr ?_)
      rcases (jobCmp_eq_gt lc a b).mp hgt with hx | ⟨hx, ht⟩
      · exact Or.inl (lc_flip hswap _ _ hx)
      · refine Or.inr ⟨lc_flip hswap _ _ hx, ?_⟩
        have h2 := lc_flip hswap _ _ ht
        rw [h2]
        decide
  have htrans2 : ∀ a b c : JobEntry,
      jobLe lc a b = true → jobLe lc b c = true → jobLe lc a c = true := by
    intro a b c hab hbc
    have ha := (jobCmp_ne_gt lc a b).mp ((jobLe_iff lc a b).mp hab)
    have hb := (jobCmp_ne_gt lc b c).mp ((jobLe_iff lc b c).mp hbc)
    have hxne : lc a.country b.country ≠ Ordering.gt := by
      rcases ha with h | ⟨h, _⟩ <;> simp [h]
    have hyne : lc b.country c.country ≠ Ordering.gt := by
      rcases hb with h | ⟨h, _⟩ <;> simp [h]
    have hzne := htrans a.country b.country c.country hxne hyne
    refine (jobLe_iff lc a c).mpr ((jobCmp_ne_gt lc a c).mpr ?_)
    cases hz : lc a.country c.country with
    | lt => exact Or.inl rfl
    | gt => exact absurd hz hzne
    | eq =>
      have hzflip : lc c.country a.country = Ordering.eq := lc_flip hswap _ _ hz
      have hx : lc a.country b.country = Ordering.eq := by
        rcases ha with h | ⟨h, _⟩
        · exfalso
          have hba : lc b.country a.country ≠ Ordering.gt :=
            htrans b.country c.country a.country hyne (by simp [hzflip])
          have : lc b.country a.country = Ordering.gt := lc_flip hswap _ _ h
          exact hba this
        · exact h
      have hy : lc b.country c.country = Ordering.eq := by
        rcases hb with h | ⟨h, _⟩
        · exfalso
          have hcb : lc c.country b.country ≠ Ordering.gt :=
            htrans c.country a.country b.country (by simp [hzflip]) (by simp [hx])
          have : lc c.country b.country = Ordering.gt := lc_flip hswap _ _ h
          exact hcb this
        · exact h
      have hta : lc a.title b.title ≠ Ordering.gt := by
        rcases ha with h | ⟨_, h⟩
        · exact absurd hx (by simp [h])
        · exact h
      have htb : lc b.title c.title ≠ Ordering.gt := by
        rcases hb with h | ⟨_, h⟩
        · exact absurd hy (by simp [h])
        · exact h
      exact Or.inr ⟨rfl, htrans a.title b.title c.title hta htb⟩
  have hp := pairwise_sortJobs (jobLe lc) htot htrans2 (mainAccum env)
  have hc := List.Pairwise.chain' hp
  unfold mainJobs
  refine List.Chain'.imp ?_ hc
  intro a b hab
  rcases (jobCmp_ne_gt lc a b).mp ((jobLe_iff lc a b).mp hab) with hx | ⟨hx, ht⟩
  · exact ⟨by simp [hx], fun he => absurd he (by simp [hx])⟩
  · exact ⟨by simp [hx], fun _ => ht⟩

/-- Witness for C8 with a consistent (degenerate) locale comparison. -/
theorem c8_witness :
    ((∀ a b : String, lcEq a b = (lcEq b a).swap)
      ∧ (∀ a b c : String,
          lcEq a b ≠ Ordering.gt → lcEq b c ≠ Ordering.gt → lcEq a c ≠ Ordering.gt))
    ∧ List.Chain'
        (fun a b =>
          lcEq a.country b.country ≠ Ordering.gt
          ∧ (lcEq a.country b.country = Ordering.eq → lcEq a.title b.title ≠ Ordering.gt))
        (mainJobs envTrivial lcEq) := by
  refine ⟨⟨fun a b => rfl, fun a b c h1 h2 => by simp [lcEq]⟩, ?_⟩
  exact c8_output_sorted envTrivial lcEq (fun a b => rfl) (fun a b c h1 h2 => by simp [lcEq])

/-! ### Negative visa phrases are detected with evidence (claim C1, amended) -/

theorem scanMatch_some {α : Type} (f : List Char → Option α) :
    ∀ (l : List Char) (a : α), scanMatch f l = some a → ∃ s, s <:+ l ∧ f s = some a := by
  intro l
  induction l with
  | nil =>
    intro a h
    exact ⟨[], List.nil_suffix, h⟩
  | cons c cs ih =>
    intro a h
    unfold scanMatch at h
    cases hf : f (c :: cs) with
    | some r =>
      rw [hf] at h
      cases h
      exact ⟨c :: cs, List.suffix_refl _, hf⟩
    | none =>
      rw [hf] at h
      obtain ⟨s, hs, hfs⟩ := ih a h
      exact ⟨s, hs.trans (List.suffix_cons c cs), hfs⟩

theorem findAltAt_some {alts : List String} {s : List Char} {a : String}
    (h : findAltAt alts s = some a) : a ∈ alts ∧ a.data.isPrefixOf s = true := by
  unfold findAltAt at h
  refine ⟨List.mem_of_find?_eq_some h, ?_⟩
  have h2 := List.find?_some (p := fun x : String => x.data.isPrefixOf s) (a := a) h
  simpa using h2

theorem firstMatch_some {alts : List String} {l : List Char} {a : String}
    (h : firstMatch alts l = some a) : a ∈ alts ∧ a.data <:+: l := by
  obtain ⟨s, hs, hf⟩ := scanMatch_some (findAltAt alts) l a h
  obtain ⟨hmem, hpre⟩ := findAltAt_some hf
  refine ⟨hmem, ?_⟩
  have hp : a.data <+: s := List.isPrefixOf_iff_prefix.mp hpre
  exact hp.isInfix.trans hs.isInfix

/-- Every negative phrase literal is whitespace-normalization-proof,
already lowercase, and at most 200 characters long. -/
theorem negativePhrases_good :
    ∀ kw ∈ negativePhrases,
      goodPat kw.data = true ∧ lowerStr kw = kw ∧ kw.data.length ≤ 200 := by
  decide

theorem goodPat_ne_nil {p : List Char} (h : goodPat p = true) : p ≠ [] := by
  intro he
  subst he
  simp [goodPat] at h

theorem goodPat_head {p : List Char} (h : goodPat p = true) :
    ∀ c, p.head? = some c → jsWs c = false := by
  intro c hc
  cases p with
  | nil => simp at hc
  | cons d rest =>
    simp only [List.head?_cons, Option.some.injEq] at hc
    subst hc
    simp only [goodPat, Bool.and_eq_true, Bool.not_eq_true'] at h
    exact h.1

theorem goodPat_rest {p : List Char} (h : goodPat p = true) : goodRest p = true := by
  cases p with
  | nil => simp [goodPat] at h
  | cons d rest =>
    simp only [goodPat, Bool.and_eq_true] at h
    exact h.2

theorem goodRest_last :
    ∀ (p : List Char), goodRest p = true → ∀ c, p.getLast? = some c → jsWs c = false := by
  intro p
  induction p with
  | nil => intro _ c hc; simp at hc
  | cons d rest ih =>
    intro h c hc
    cases rest with
    | nil =>
      simp only [List.getLast?_singleton, Option.some.injEq] at hc
      subst hc
      simpa [goodRest, Bool.not_eq_true'] using h
    | cons e rest2 =>
      simp only [goodRest, Bool.and_eq_true] at h
      have hc2 : (e :: rest2).getLast? = some c := by
        rw [← hc]
        exact (List.getLast?_cons_cons ..).symm
      exact ih h.2 c hc2

/-- Appending text to a `goodRest` phrase: whitespace normalization leaves
the phrase intact. -/
theorem wsNormalize_append_good :
    ∀ (p : List Char), goodRest p = true →
      ∀ (t : List Char), wsNormalize (p ++ t) = p ++ wsNormalize t := by
  intro p
  induction p with
  | nil => intro _ t; rfl
  | cons c p2 ih =>
    intro h t
    cases p2 with
    | nil =>
      have hc : jsWs c = false := by simpa [goodRest, Bool.not_eq_true'] using h
      cases t with
      | nil => simp [wsNormalize, hc]
      | cons e t2 => simp [wsNormalize, hc]
    | cons d p3 =>
      simp only [goodRest, Bool.and_eq_true] at h
      obtain ⟨h1, h2⟩ := h
      have hrec := ih h2 t
      simp only [List.cons_append] at hrec ⊢
      cases hc : jsWs c with
      | false => simp [wsNormalize, hc, hrec]
      | true =>
        rw [hc] at h1
        simp only [Bool.not_true, Bool.false_or, Bool.and_eq_true, beq_iff_eq,
          Bool.not_eq_true'] at h1
        simp [wsNormalize, hc, h1.2, hrec, h1.1]

/-- Prepending arbitrary text: normalization of the prefix contributes some
normalized prefix, provided what follows starts with non-whitespace. -/
theorem wsNormalize_append_exists :
    ∀ (s : List Char) (e : Char) (m : List Char), jsWs e = false →
      ∃ s2, wsNormalize (s ++ e :: m) = s2 ++ wsNormalize (e :: m) := by
  intro s
  induction s with
  | nil => intro e m _; exact ⟨[], rfl⟩
  | cons c s2 ih =>
    intro e m he
    cases s2 with
    | nil =>
      cases hc : jsWs c with
      | false => exact ⟨[c], by simp [wsNormalize, hc]⟩
      | true => exact ⟨[' '], by simp [wsNormalize, hc, he]⟩
    | cons d s3 =>
      obtain ⟨s4, hs4⟩ := ih e m he
      simp only [List.cons_append] at hs4 ⊢
      cases hc : jsWs c with
      | false =>
        refine ⟨c :: s4, ?_⟩
        simp [wsNormalize, hc, hs4]
      | true =>
        cases hd : jsWs d with
        | true =>
          refine ⟨s4, ?_⟩
          simp [wsNormalize, hc, hd, hs4]
        | false =>
          refine ⟨' ' :: s4, ?_⟩
          simp [wsNormalize, hc, hd, hs4]

/-- An intact-by-normalization phrase occurring in a text still occurs in
the whitespace-normalized text. -/
theorem infix_wsNormalize {p l : List Char} (hgood : goodPat p = true)
    (h : p <:+: l) : p <:+: wsNormalize l := by
  obtain ⟨s, t, rfl⟩ := h
  obtain ⟨c, p2, rfl⟩ := List.exists_cons_of_ne_nil (goodPat_ne_nil hgood)
  have hc : jsWs c = false := goodPat_head hgood c rfl
  rw [List.append_assoc]
  simp only [List.cons_append]
  obtain ⟨s2, hs2⟩ := wsNormalize_append_exists s c (p2 ++ t) hc
  rw [hs2]
  have hsplit := wsNormalize_append_good (c :: p2) (goodPat_rest hgood) t
  simp only [List.cons_append] at hsplit
  rw [hsplit]
  exact ⟨s2, wsNormalize t, by simp⟩

theorem lowerChar_space : lowerChar ' ' = ' ' := by decide

/-- Lowercasing does not change whitespace-ness. -/
theorem jsWs_lowerChar (c : Char) : jsWs (lowerChar c) = jsWs c := by
  unfold lowerChar
  split_ifs with h
  · have hc : jsWs c = false := by
      unfold jsWs
      have e1 : (c == ' ') = false := beq_eq_false_iff_ne.mpr (fun he => absurd (he ▸ h) (by decide))
      have e2 : (c == '\t') = false := beq_eq_false_iff_ne.mpr (fun he => absurd (he ▸ h) (by decide))
      have e3 : (c == '\n') = false := beq_eq_false_iff_ne.mpr (fun he => absurd (he ▸ h) (by decide))
      have e4 : (c == '\r') = false := beq_eq_false_iff_ne.mpr (fun he => absurd (he ▸ h) (by decide))
      have e5 : (c == '\x0b') = false := beq_eq_false_iff_ne.mpr (fun he => absurd (he ▸ h) (by decide))
      have e6 : (c == '\x0c') = false := beq_eq_false_iff_ne.mpr (fun he => absurd (he ▸ h) (by decide))
      rw [e1, e2, e3, e4, e5, e6]
      rfl
    rw [hc]
    obtain ⟨h1, h2⟩ := h
    revert h1 h2
    generalize c.toNat = n
    intro h1 h2
    interval_cases n <;> decide
  · rfl

/-- Whitespace normalization commutes with lowercasing. -/
theorem wsNormalize_map_lower :
    ∀ (l : List Char), wsNormalize (l.map lowerChar) = (wsNormalize l).map lowerChar := by
  intro l
  induction l with
  | nil => rfl
  | cons c l2 ih =>
    cases l2 with
    | nil =>
      cases hc : jsWs c with
      | false => simp [wsNormalize, jsWs_lowerChar, hc]
      | true => simp [wsNormalize, jsWs_lowerChar, hc, lowerChar_space]
    | cons d l3 =>
      simp only [List.map_cons] at ih
      cases hc : jsWs c with
      | false => simp [wsNormalize, jsWs_lowerChar, hc, ih]
      | true =>
        cases hd : jsWs d with
        | true => simp [wsNormalize, jsWs_lowerChar, hc, hd, ih]
        | false => simp [wsNormalize, jsWs_lowerChar, hc, hd, ih, lowerChar_space]

/-- Trimming commutes with lowercasing. -/
theorem trimChars_map_lower (x : List Char) :
    trimChars (x.map lowerChar) = (trimChars x).map lowerChar := by
  have hfun : (jsWs ∘ lowerChar) = jsWs := funext jsWs_lowerChar
  unfold trimChars
  rw [List.dropWhile_map, hfun, ← List.map_reverse, List.dropWhile_map, hfun,
    ← List.map_reverse]

/-- `indexOf` finds every substring occurrence. -/
theorem indexOfSub_of_infix :
    ∀ (l needle : List Char), needle <:+: l → needle ≠ [] →
      ∃ i, indexOfSub needle l = some i := by
  intro l
  induction l with
  | nil =>
    intro needle hinf hne
    obtain ⟨s, t, heq⟩ := hinf
    exfalso
    apply hne
    have hl := congrArg List.length heq
    simp only [List.length_append, List.length_nil] at hl
    exact List.eq_nil_of_length_eq_zero (by omega)
  | cons c cs ih =>
    intro needle hinf hne
    by_cases hp : needle.isPrefixOf (c :: cs) = true
    · refine ⟨0, ?_⟩
      unfold indexOfSub
      rw [if_pos hp]
    · obtain ⟨s, t, heq⟩ := hinf
      cases s with
      | nil =>
        exfalso
        apply hp
        rw [ List.isPrefixOf_iff_prefix]
        exact ⟨t, by simpa using heq⟩
      | cons x s2 =>
        have h2 : x = c ∧ s2 ++ (needle ++ t) = cs := by simpa using heq
        have hinf2 : needle <:+: cs := ⟨s2, t, by rw [List.append_assoc]; exact h2.2⟩
        obtain ⟨i, hi⟩ := ih needle hinf2 hne
        refine ⟨i + 1, ?_⟩
        unfold indexOfSub
        rw [if_neg hp, hi]
        rfl

/-- The index returned by `indexOf` is a real occurrence. -/
theorem indexOfSub_some_prefix :
    ∀ (l needle : List Char) (i : Nat), indexOfSub needle l = some i →
      needle.isPrefixOf (l.drop i) = true := by
  intro l
  induction l with
  | nil =>
    intro needle i h
    unfold indexOfSub at h
    split_ifs at h with he
    cases h
    simp [List.isEmpty_iff.mp he]
  | cons c cs ih =>
    intro needle i h
    unfold indexOfSub at h
    split_ifs at h with hp
    · cases h
      simpa using hp
    · cases hrec : indexOfSub needle cs with
      | none => rw [hrec] at h; simp at h
      | some j =>
        rw [hrec] at h
        simp only [Option.map_some'] at h
        cases h
        simpa using ih needle j hrec

/-- An occurrence at offset `j` survives truncation to any length covering
it. -/
theorem infix_take_of_prefix_drop {l kw : List Char} {j m : Nat}
    (h : kw <+: l.drop j) (hm : j + kw.length ≤ m) : kw <:+: l.take m := by
  obtain ⟨t, ht⟩ := h
  have hj : j ≤ m := by omega
  have hsum : j + (m - j) = m := by omega
  have hsplit : l.take m = l.take j ++ (l.drop j).take (m - j) := by
    have h2 := List.take_add l j (m - j)
    rw [hsum] at h2
    exact h2
  rw [hsplit, ← ht, List.take_append_eq_append_take,
    List.take_of_length_le (by omega : kw.length ≤ m - j)]
  exact ⟨l.take j, t.take (m - j - kw.length), by rw [List.append_assoc]⟩

/-- A phrase with a non-whitespace head survives `dropWhile whitespace`. -/
theorem infix_dropWhile_of_head {p l : List Char}
    (hhead : ∀ c, p.head? = some c → jsWs c = false) (hne : p ≠ [])
    (h : p <:+: l) : p <:+: l.dropWhile jsWs := by
  obtain ⟨s, t, rfl⟩ := h
  obtain ⟨c, p2, rfl⟩ := List.exists_cons_of_ne_nil hne
  have hc : jsWs c = false := hhead c rfl
  rw [List.append_assoc, List.cons_append, List.dropWhile_append]
  split_ifs with hs
  · rw [List.dropWhile_cons]
    simp only [hc, Bool.false_eq_true, if_false]
    exact ⟨[], t, by simp⟩
  · exact ⟨s.dropWhile jsWs, t, by simp⟩

/-- A phrase with non-whitespace endpoints survives trimming. -/
theorem infix_trimChars {p l : List Char}
    (hne : p ≠ [])
    (hhead : ∀ c, p.head? = some c → jsWs c = false)
    (hlast : ∀ c, p.getLast? = some c → jsWs c = false)
    (h : p <:+: l) : p <:+: trimChars l := by
  unfold trimChars
  have h1 := infix_dropWhile_of_head hhead hne h
  have h2 : p.reverse <:+: (l.dropWhile jsWs).reverse := List.reverse_infix.mpr h1
  have hne2 : p.reverse ≠ [] := by simpa using hne
  have hhead2 : ∀ c, p.reverse.head? = some c → jsWs c = false := by
    intro c hc
    rw [List.head?_reverse] at hc
    exact hlast c hc
  have h3 := infix_dropWhile_of_head hhead2 hne2 h2
  have h4 := List.reverse_infix.mpr h3
  simpa using h4

/-- Claim C1 (amended): for every fetched detail-page text on which the
positive matcher finds nothing and the negative matcher finds a phrase,
`detectVisa` returns Sponsorship-Denied ("No") with an evidence snippet
that contains the matched phrase case-insensitively. -/
theorem c1_negative_detected (text kw : String)
    (hpos : firstMatch positivePhrases (lowerStr (jsSplitLast text "Markdown Content:")).data = none)
    (hneg : firstMatch negativePhrases (lowerStr (jsSplitLast text "Markdown Content:")).data = some kw) :
    (detectVisaPure text).status = VisaStatus.no
    ∧ ∃ ev, (detectVisaPure text).evidence = some ev ∧ kw.data <:+: (lowerStr ev).data := by
  obtain ⟨hmem, hinf⟩ := firstMatch_some hneg
  obtain ⟨hgoodp, hlow, hlen⟩ := negativePhrases_good kw hmem
  have hne : kw.data ≠ [] := goodPat_ne_nil hgoodp
  have hdet : detectVisaPure text
      = ⟨VisaStatus.no, extractEvidence (jsSplitLast text "Markdown Content:") kw,
         jsSplitLast text "Markdown Content:"⟩ := by
    simp only [detectVisaPure]
    rw [hpos, hneg]
  rw [hdet]
  refine ⟨rfl, ?_⟩
  have hinf0 : kw.data <:+: (jsSplitLast text "Markdown Content:").data.map lowerChar := hinf
  have hinf2 : kw.data
      <:+: (wsNormalize (jsSplitLast text "Markdown Content:").data).map lowerChar := by
    have h1 := infix_wsNormalize hgoodp hinf0
    rw [wsNormalize_map_lower] at h1
    exact h1
  obtain ⟨i, hidx⟩ :=
    indexOfSub_of_infix ((wsNormalize (jsSplitLast text "Markdown Content:").data).map lowerChar)
      kw.data hinf2 hne
  simp only [extractEvidence]
  rw [hlow, hidx]
  refine ⟨_, rfl, ?_⟩
  have hpre := indexOfSub_some_prefix
    ((wsNormalize (jsSplitLast text "Markdown Content:").data).map lowerChar) kw.data i hidx
  have hp2 : kw.data
      <+: ((wsNormalize (jsSplitLast text "Markdown Content:").data).map lowerChar).drop i :=
    List.isPrefixOf_iff_prefix.mp hpre
  obtain ⟨trest, htrest⟩ := hp2
  have hlen1 : 1 ≤ kw.data.length := List.length_pos.mpr hne
  have hlenle : i + kw.data.length
      ≤ ((wsNormalize (jsSplitLast text "Markdown Content:").data).map lowerChar).length := by
    have hl := congrArg List.length htrest
    simp only [List.length_append, List.length_drop] at hl
    omega
  have hmaplen : ((wsNormalize (jsSplitLast text "Markdown Content:").data).map lowerChar).length
      = (wsNormalize (jsSplitLast text "Markdown Content:").data).length := by
    simp
  have hslice : kw.data
      <:+: (((wsNormalize (jsSplitLast text "Markdown Content:").data).map lowerChar).drop
              (i - 160)).take
            (min (wsNormalize (jsSplitLast text "Markdown Content:").data).length (i + 200)
              - (i - 160)) := by
    have hdd : (((wsNormalize (jsSplitLast text "Markdown Content:").data).map lowerChar).drop
          (i - 160)).drop (i - (i - 160))
        = ((wsNormalize (jsSplitLast text "Markdown Content:").data).map lowerChar).drop i := by
      rw [List.drop_drop]
      congr 1
      omega
    apply infix_take_of_prefix_drop (j := i - (i - 160))
    · rw [hdd]
      exact ⟨trest, htrest⟩
    · omega
  have hhead := goodPat_head hgoodp
  have hlast := goodRest_last kw.data (goodPat_rest hgoodp)
  have htrim := infix_trimChars hne hhead hlast hslice
  show kw.data
      <:+: (trimChars
              (((wsNormalize (jsSplitLast text "Markdown Content:").data).drop (i - 160)).take
                (min (wsNormalize (jsSplitLast text "Markdown Content:").data).length (i + 200)
                  - (i - 160)))).map lowerChar
  rw [← trimChars_map_lower, List.map_take, List.map_drop]
  exact htrim

/-- Witness for the amended C1 at the concrete body "without sponsorship". -/
theorem c1_witness :
    (firstMatch positivePhrases
        (lowerStr (jsSplitLast "without sponsorship" "Markdown Content:")).data = none
      ∧ firstMatch negativePhrases
          (lowerStr (jsSplitLast "without sponsorship" "Markdown Content:")).data
          = some "without sponsorship")
    ∧ (detectVisaPure "without sponsorship").status = VisaStatus.no
    ∧ ∃ ev, (detectVisaPure "without sponsorship").evidence = some ev
        ∧ ("without sponsorship").data <:+: (lowerStr ev).data := by
  refine ⟨⟨by decide, by decide⟩, ?_⟩
  exact c1_negative_detected "without sponsorship" "without sponsorship" (by decide) (by decide)

end JobFetch
